import Mathlib

/-!
Verification of the Boolean retrieval core of the `information-retrieval-boolean-pyserini`
repository. The Python sources are shallowly embedded: strings are Lean `String`s
(lists of characters), Python `set` objects holding document ids are `Finset String`,
Python dicts keyed by strings are association lists, and the externally supplied
pieces (the NLTK Porter stemmer and the NLTK English stopword list, which are
library data, not repository code) are parameters of the embedded
`DocumentPreprocessor`. Python's `str.lower` is modelled on ASCII letters, the
only characters the query grammar is sensitive to.
-/

namespace IRBool

/-- The six ASCII whitespace characters recognised by Python's `str.strip` and
`str.split()`: space, tab, newline, carriage return, vertical tab, form feed. -/
def pyIsSpace (c : Char) : Bool :=
  c == ' ' || c == '\t' || c == '\n' || c == '\r' || c == Char.ofNat 11 || c == Char.ofNat 12

/-- Python `str.strip` on a character list: drop whitespace from both ends. -/
def stripL (l : List Char) : List Char :=
  ((l.dropWhile pyIsSpace).reverse.dropWhile pyIsSpace).reverse

/-- Python `str.strip`. -/
def pyStrip (s : String) : String := ⟨stripL s.data⟩

/-- The 26 uppercase ASCII letters paired with their lowercase forms. -/
def upperLowerPairs : List (Char × Char) :=
  [('A', 'a'), ('B', 'b'), ('C', 'c'), ('D', 'd'), ('E', 'e'), ('F', 'f'), ('G', 'g'),
   ('H', 'h'), ('I', 'i'), ('J', 'j'), ('K', 'k'), ('L', 'l'), ('M', 'm'), ('N', 'n'),
   ('O', 'o'), ('P', 'p'), ('Q', 'q'), ('R', 'r'), ('S', 's'), ('T', 't'), ('U', 'u'),
   ('V', 'v'), ('W', 'w'), ('X', 'x'), ('Y', 'y'), ('Z', 'z')]

/-- ASCII lowercasing of one character (the fragment of Python `str.lower`
relevant to this system's data). -/
def lowerChar (c : Char) : Char :=
  match upperLowerPairs.find? (fun p => p.1 == c) with
  | some p => p.2
  | none => c

/-- Python `str.lower` (ASCII model). -/
def pyLower (s : String) : String := ⟨s.data.map lowerChar⟩

/-- Does the first list start with the second one? -/
def startsWithL : List Char → List Char → Bool
  | _, [] => true
  | [], _ :: _ => false
  | c :: cs, p :: ps => c == p && startsWithL cs ps

/-- Worker for Python `str.split(sep)`: scans left to right, splitting at each
non-overlapping occurrence of `sep`. The fuel argument only serves Lean's
termination checking; `fuel = length of the scanned list` always suffices
because every step consumes at least one character. -/
def pySplitOnAux (sep : List Char) : Nat → List Char → List Char → List (List Char)
  | _, [], acc => [acc.reverse]
  | 0, rest, acc => [acc.reverse ++ rest]
  | fuel + 1, c :: cs, acc =>
    if startsWithL (c :: cs) sep then
      acc.reverse :: pySplitOnAux sep fuel ((c :: cs).drop sep.length) []
    else
      pySplitOnAux sep fuel cs (c :: acc)

/-- Python `s.split(sep)` on character lists (for a non-empty separator). -/
def pySplitOnL (l sep : List Char) : List (List Char) :=
  if sep.isEmpty then [l] else pySplitOnAux sep l.length l []

/-- Python `s.split(sep)` for a non-empty separator string. -/
def pySplitOn (s sep : String) : List String :=
  (pySplitOnL s.data sep.data).map (fun w => (⟨w⟩ : String))

/-- Python's substring test `sep in s`, for a non-empty `sep`: `sep` occurs in
`s` exactly when splitting on it yields more than one part. -/
def hasSub (s sep : String) : Bool := (pySplitOn s sep).length != 1

/-- Worker for Python `str.split()` (no separator): split on whitespace runs,
discarding empty chunks. -/
def splitWsAux : List Char → List Char → List (List Char)
  | [], acc => if acc.isEmpty then [] else [acc.reverse]
  | c :: cs, acc =>
    if pyIsSpace c then
      if acc.isEmpty then splitWsAux cs [] else acc.reverse :: splitWsAux cs []
    else splitWsAux cs (c :: acc)

/-- Python `str.split()` on character lists. -/
def splitWsL (l : List Char) : List (List Char) := splitWsAux l []

/-- Python `str.split()`. -/
def pySplitWs (s : String) : List String := (splitWsL s.data).map (fun w => (⟨w⟩ : String))

/-- Glue character lists with single spaces (Python `' '.join`). -/
def joinWithSpace : List (List Char) → List Char
  | [] => []
  | [t] => t
  | t :: ts => t ++ ' ' :: joinWithSpace ts

/-- Python `' '.join(words)`. -/
def joinSpace (ws : List String) : String := ⟨joinWithSpace (ws.map String.data)⟩

/-- Lexicographic comparison of character lists by code point, the order Python's
`sorted` uses on strings. -/
def leChars : List Char → List Char → Bool
  | [], _ => true
  | _ :: _, [] => false
  | a :: as, b :: bs =>
    if a.toNat < b.toNat then true
    else if b.toNat < a.toNat then false
    else leChars as bs

/-- Lexicographic order on strings by code point (Python's string order). -/
def strLe (a b : String) : Prop := leChars a.data b.data = true

instance : DecidableRel strLe := fun _ _ => inferInstanceAs (Decidable (_ = true))

instance : IsTotal String strLe :=
  ⟨fun a b => by
    show leChars a.data b.data = true ∨ leChars b.data a.data = true
    generalize a.data = l₁
    generalize b.data = l₂
    induction l₁ generalizing l₂ with
    | nil => exact Or.inl rfl
    | cons c cs ih =>
      cases l₂ with
      | nil => exact Or.inr rfl
      | cons d ds =>
        rcases Nat.lt_trichotomy c.toNat d.toNat with h | h | h
        · left
          simp only [leChars]
          rw [if_pos h]
        · rcases ih ds with h' | h'
          · left
            simp only [leChars]
            rw [if_neg (by omega), if_neg (by omega)]
            exact h'
          · right
            simp only [leChars]
            rw [if_neg (by omega), if_neg (by omega)]
            exact h'
        · right
          simp only [leChars]
          rw [if_pos h]⟩

instance : IsTrans String strLe :=
  ⟨fun a b c => by
    show leChars a.data b.data = true → leChars b.data c.data = true →
      leChars a.data c.data = true
    generalize a.data = l₁
    generalize b.data = l₂
    generalize c.data = l₃
    induction l₁ generalizing l₂ l₃ with
    | nil => intro _ _; rfl
    | cons x xs ih =>
      cases l₂ with
      | nil => intro h1 _; simp [leChars] at h1
      | cons y ys =>
        cases l₃ with
        | nil => intro _ h2; simp [leChars] at h2
        | cons z zs =>
          intro h1 h2
          simp only [leChars] at h1 h2 ⊢
          rcases Nat.lt_trichotomy x.toNat y.toNat with hxy | hxy | hxy
          · rcases Nat.lt_trichotomy y.toNat z.toNat with hyz | hyz | hyz
            · rw [if_pos (by omega : x.toNat < z.toNat)]
            · rw [if_pos (by omega : x.toNat < z.toNat)]
            · rw [if_neg (by omega), if_pos hyz] at h2
              simp at h2
          · rcases Nat.lt_trichotomy y.toNat z.toNat with hyz | hyz | hyz
            · rw [if_pos (by omega : x.toNat < z.toNat)]
            · rw [if_neg (by omega), if_neg (by omega)] at h1
              rw [if_neg (by omega), if_neg (by omega)] at h2
              rw [if_neg (by omega), if_neg (by omega)]
              exact ih ys zs h1 h2
            · rw [if_neg (by omega), if_pos hyz] at h2
              simp at h2
          · rw [if_neg (by omega), if_pos hxy] at h1
            simp at h1⟩

instance : IsAntisymm String strLe :=
  ⟨fun a b => by
    rcases a with ⟨l₁⟩
    rcases b with ⟨l₂⟩
    show leChars l₁ l₂ = true → leChars l₂ l₁ = true → _
    intro h1 h2
    have key : ∀ m₁ m₂ : List Char, leChars m₁ m₂ = true → leChars m₂ m₁ = true → m₁ = m₂ := by
      intro m₁
      induction m₁ with
      | nil =>
        intro m₂ g1 g2
        cases m₂ with
        | nil => rfl
        | cons y ys => simp [leChars] at g2
      | cons x xs ih =>
        intro m₂ g1 g2
        cases m₂ with
        | nil => simp [leChars] at g1
        | cons y ys =>
          simp only [leChars] at g1 g2
          rcases Nat.lt_trichotomy x.toNat y.toNat with h | h | h
          · rw [if_neg (by omega), if_pos h] at g2
            simp at g2
          · have hxy : x = y := Char.ext_iff.mpr (UInt32.ext_iff.mpr h)
            rw [if_neg (by omega), if_neg (by omega)] at g1
            rw [if_neg (by omega), if_neg (by omega)] at g2
            rw [hxy, ih ys g1 g2]
          · rw [if_neg (by omega), if_pos h] at g1
            simp at g1
    exact congrArg String.mk (key l₁ l₂ h1 h2)⟩

/-- Python's `string.punctuation`: the 32 ASCII punctuation characters. -/
def punctuationChars : List Char :=
  ['!', Char.ofNat 34, '#', '$', '%', '&', Char.ofNat 39, '(', ')', '*', '+', ',', '-',
   '.', '/', ':', ';', '<', '=', '>', '?', '@', '[', Char.ofNat 92, ']', '^', '_',
   Char.ofNat 96, Char.ofNat 123, '|', Char.ofNat 125, '~']

/-- `DocumentPreprocessor` from `preprocessing/preprocessor.py`. The Porter
stemmer and the NLTK English stopword list are external library data, so they
are carried as parameters of the embedded instance. -/
structure DocumentPreprocessor where
  stemmer : String → String
  stop_words : List String

/-- `DocumentPreprocessor.remove_punctuation`: delete every ASCII punctuation
character (Python `text.translate(str.maketrans('', '', string.punctuation))`). -/
def remove_punctuation (text : String) : String :=
  ⟨text.data.filter (fun c => !(punctuationChars.contains c))⟩

/-- `DocumentPreprocessor.to_lowercase`. -/
def to_lowercase (text : String) : String := pyLower text

/-- `DocumentPreprocessor.clean_whitespace`: `' '.join(text.split())`. -/
def clean_whitespace (text : String) : String := joinSpace (pySplitWs text)

/-- `DocumentPreprocessor.remove_stopwords`: keep the words whose lowercased
form is not a stopword. -/
def DocumentPreprocessor.remove_stopwords (p : DocumentPreprocessor) (words : List String) :
    List String :=
  words.filter (fun w => !(p.stop_words.contains (pyLower w)))

/-- `DocumentPreprocessor.stem_words`: stem every word. -/
def DocumentPreprocessor.stem_words (p : DocumentPreprocessor) (words : List String) :
    List String :=
  words.map p.stemmer

/-- `DocumentPreprocessor.preprocess_manual`: lowercase, remove punctuation,
collapse whitespace, tokenize, drop stopwords, stem, and join with spaces. -/
def DocumentPreprocessor.preprocess_manual (p : DocumentPreprocessor) (text : String) : String :=
  joinSpace (p.stem_words (p.remove_stopwords
    (pySplitWs (clean_whitespace (remove_punctuation (to_lowercase text))))))

/-- Modelled from the spec: `DocumentPreprocessor.preprocess_text`, the method
`BooleanRetrieval._get_documents_for_term` calls but which is absent from the
available source files. Per §4.1 it is the normalization pipeline returning the
token sequence (the same steps as `preprocess_manual`, without the final join). -/
def DocumentPreprocessor.preprocess_text (p : DocumentPreprocessor) (text : String) :
    List String :=
  p.stem_words (p.remove_stopwords
    (pySplitWs (clean_whitespace (remove_punctuation (to_lowercase text)))))

/-- Spec-side restatement of the §4.1 pipeline, written directly from the spec's
wording: lowercase, strip ASCII punctuation, split on whitespace, drop stopwords
(case-insensitively), stem. (The spec's whitespace-collapsing step cannot change
the subsequent whitespace split, so it does not reappear here; comparing this
definition against the code-side pipeline is the point of claim C7.) -/
def normalize_spec (p : DocumentPreprocessor) (text : String) : List String :=
  (((splitWsL ((text.data.map lowerChar).filter
        (fun c => !(punctuationChars.contains c)))).map (fun w => (⟨w⟩ : String))).filter
      (fun w => !(p.stop_words.contains (pyLower w)))).map p.stemmer

/-- One dict entry insertion of `build_inverted_index`: add `d` to the set under
key `t`, creating the entry if the key is absent (Python dict update). -/
def insertTerm : List (String × Finset String) → String → String → List (String × Finset String)
  | [], t, d => [(t, {d})]
  | e :: es, t, d => if e.1 = t then (e.1, insert d e.2) :: es else e :: insertTerm es t d

/-- Dict lookup in the inverted index (`term in self.inverted_index` plus access). -/
def indexFind : List (String × Finset String) → String → Option (Finset String)
  | [], _ => none
  | e :: es, t => if e.1 = t then some e.2 else indexFind es t

/-- Lookup defaulting to the empty document set for absent terms. -/
def indexFindD (idx : List (String × Finset String)) (t : String) : Finset String :=
  (indexFind idx t).getD ∅

/-- One document as read back from the underlying Lucene index during
`build_inverted_index`: its collection docid, its stored contents, and the term
list of its stored document vector (`get_document_vector`). -/
structure LuceneDoc where
  docid : String
  contents : String
  vector : List String
deriving DecidableEq

/-- `BooleanRetrieval.build_inverted_index`: for every document, insert its
docid under every term of its document vector. -/
def build_inverted_index (docs : List LuceneDoc) : List (String × Finset String) :=
  docs.foldl (fun idx doc => doc.vector.foldl (fun idx2 t => insertTerm idx2 t doc.docid) idx) []

/-- The `BooleanRetrieval` object: its preprocessor, its manual inverted index
and its docid → stored-content map. -/
structure BooleanRetrieval where
  preprocessor : DocumentPreprocessor
  inverted_index : List (String × Finset String)
  documents : List (String × String)

/-- `BooleanRetrieval._get_documents_for_term`: strip and lowercase the term
group, normalize it into tokens, and union the index sets of the tokens present
in the inverted index. -/
def BooleanRetrieval.get_documents_for_term (r : BooleanRetrieval) (term : String) :
    Finset String :=
  (r.preprocessor.preprocess_text (pyLower (pyStrip term))).foldl
    (fun acc tok =>
      match indexFind r.inverted_index tok with
      | some docs => acc ∪ docs
      | none => acc) ∅

/-- `BooleanRetrieval._handle_and`: split on `" and "`, strip the parts,
intersect their document sets left to right. -/
def BooleanRetrieval.handle_and (r : BooleanRetrieval) (query : String) : Finset String :=
  match (pySplitOn query " and ").map pyStrip with
  | [] => ∅
  | t :: ts => ts.foldl (fun acc term => acc ∩ r.get_documents_for_term term)
      (r.get_documents_for_term t)

/-- `BooleanRetrieval._handle_or`: split on `" or "`, strip the parts, union
their document sets. -/
def BooleanRetrieval.handle_or (r : BooleanRetrieval) (query : String) : Finset String :=
  ((pySplitOn query " or ").map pyStrip).foldl
    (fun acc term => acc ∪ r.get_documents_for_term term) ∅

/-- `BooleanRetrieval._handle_not`: split on `" not "`; unless that yields
exactly two parts the result is empty, else it is the positive set minus the
negative set. -/
def BooleanRetrieval.handle_not (r : BooleanRetrieval) (query : String) : Finset String :=
  match pySplitOn query " not " with
  | [p, n] => r.get_documents_for_term (pyStrip p) \ r.get_documents_for_term (pyStrip n)
  | _ => ∅

/-- `BooleanRetrieval._handle_and_not`: split on `" and not "`; unless that
yields exactly two parts the result is empty, else resolve the left part (as an
AND group when it contains `" and "`, as a term group otherwise) and subtract
the right part's term-group set. -/
def BooleanRetrieval.handle_and_not (r : BooleanRetrieval) (query : String) : Finset String :=
  match pySplitOn query " and not " with
  | [l, n] =>
    (if hasSub (pyStrip l) " and " then r.handle_and (pyStrip l)
     else r.get_documents_for_term (pyStrip l)) \ r.get_documents_for_term (pyStrip n)
  | _ => ∅

/-- `BooleanRetrieval._parse_boolean_query`: lowercase and strip the query, then
dispatch on the first operator substring found, in the fixed priority order. -/
def BooleanRetrieval.parse_boolean_query (r : BooleanRetrieval) (query : String) : Finset String :=
  if hasSub (pyStrip (pyLower query)) " and not " then
    r.handle_and_not (pyStrip (pyLower query))
  else if hasSub (pyStrip (pyLower query)) " and " then
    r.handle_and (pyStrip (pyLower query))
  else if hasSub (pyStrip (pyLower query)) " or " then
    r.handle_or (pyStrip (pyLower query))
  else if hasSub (pyStrip (pyLower query)) " not " then
    r.handle_not (pyStrip (pyLower query))
  else
    r.get_documents_for_term (pyStrip (pyLower query))

/-- Python `sorted(list(s))` on a set of document ids: the ascending
lexicographic enumeration of the finite set. -/
def sortedDocs (s : Finset String) : List String :=
  Quotient.lift (fun l : List String => l.insertionSort strLe)
    (fun l₁ l₂ p => by
      have hp : List.Perm l₁ l₂ := p
      exact List.eq_of_perm_of_sorted
        ((List.perm_insertionSort _ l₁).trans (hp.trans (List.perm_insertionSort _ l₂).symm))
        (List.sorted_insertionSort _ l₁) (List.sorted_insertionSort _ l₂))
    s.val

/-- `BooleanRetrieval.search_boolean`: strip the query, return `[]` when blank,
else evaluate it and return the sorted result list truncated to `max_results`. -/
def BooleanRetrieval.search_boolean (r : BooleanRetrieval) (query : String)
    (max_results : Nat) : List String :=
  if pyStrip query = "" then []
  else (sortedDocs (r.parse_boolean_query (pyStrip query))).take max_results

/-- The verification report of `BooleanRetrieval.verify_boolean_logic`. The
per-document analysis payload is modelled as the list of analyzed doc ids. -/
structure Verification where
  query : String
  total_results : Nat
  logic_correct : Bool
  issues : List String
  document_analysis : List String

/-- Record the per-document analysis entry appended by the AND/OR verifiers. -/
def withAnalysis (v : Verification) (doc_id : String) : Verification :=
  { v with document_analysis := v.document_analysis ++ [doc_id] }

/-- Flag a document that misses a required term (shared shape of the positive
checks in the NOT/AND NOT verifiers). -/
def posCheck (r : BooleanRetrieval) (term doc_id : String) (v : Verification) : Verification :=
  if doc_id ∈ r.get_documents_for_term term then v
  else { v with logic_correct := false,
                issues := v.issues ++ ["Document " ++ doc_id ++ " missing required term: " ++ term] }

/-- Flag a document that contains an excluded term (shared shape of the negative
checks in the NOT/AND NOT verifiers). -/
def negCheck (r : BooleanRetrieval) (term doc_id : String) (v : Verification) : Verification :=
  if doc_id ∈ r.get_documents_for_term term then
    { v with logic_correct := false,
             issues := v.issues ++ ["Document " ++ doc_id ++ " contains excluded term: " ++ term] }
  else v

/-- `BooleanRetrieval._verify_and_logic`: every split part must match the doc. -/
def BooleanRetrieval.verify_and_logic (r : BooleanRetrieval) (query doc_id : String)
    (v : Verification) : Verification :=
  withAnalysis
    (((pySplitOn query " and ").map pyStrip).foldl
      (fun v2 term =>
        if doc_id ∈ r.get_documents_for_term term then v2
        else { v2 with logic_correct := false,
                       issues := v2.issues ++
                         ["Document " ++ doc_id ++ " missing required term: " ++ term] }) v)
    doc_id

/-- `BooleanRetrieval._verify_or_logic`: at least one split part must match. -/
def BooleanRetrieval.verify_or_logic (r : BooleanRetrieval) (query doc_id : String)
    (v : Verification) : Verification :=
  withAnalysis
    (if ((pySplitOn query " or ").map pyStrip).any
        (fun term => decide (doc_id ∈ r.get_documents_for_term term)) then v
     else { v with logic_correct := false,
                   issues := v.issues ++
                     ["Document " ++ doc_id ++ " does not contain any required terms"] })
    doc_id

/-- `BooleanRetrieval._verify_and_not_logic`: on a two-part `" and not "` split,
check the positive part (an AND group when it contains `" and "`) and then the
excluded term; on any other split shape, return the report unchanged. -/
def BooleanRetrieval.verify_and_not_logic (r : BooleanRetrieval) (query doc_id : String)
    (v : Verification) : Verification :=
  match pySplitOn query " and not " with
  | [l, n] =>
    negCheck r (pyStrip n) doc_id
      (if hasSub (pyStrip l) " and " then
        if ((pySplitOn (pyStrip l) " and ").map pyStrip).all
            (fun term => decide (doc_id ∈ r.get_documents_for_term term)) then v
        else { v with logic_correct := false,
                      issues := v.issues ++
                        ["Document " ++ doc_id ++ " missing required terms"] }
       else posCheck r (pyStrip l) doc_id v)
  | _ => v

/-- `BooleanRetrieval._verify_not_logic`: on a two-part `" not "` split, check
the required term and then the excluded term; else return the report unchanged. -/
def BooleanRetrieval.verify_not_logic (r : BooleanRetrieval) (query doc_id : String)
    (v : Verification) : Verification :=
  match pySplitOn query " not " with
  | [p, n] => negCheck r (pyStrip n) doc_id (posCheck r (pyStrip p) doc_id v)
  | _ => v

/-- The per-document dispatch inside `verify_boolean_logic`'s loop: same
operator priority as the evaluator, no branch for single-term queries. -/
def BooleanRetrieval.verify_step (r : BooleanRetrieval) (qL doc_id : String)
    (v : Verification) : Verification :=
  if hasSub qL " and not " then r.verify_and_not_logic qL doc_id v
  else if hasSub qL " and " then r.verify_and_logic qL doc_id v
  else if hasSub qL " or " then r.verify_or_logic qL doc_id v
  else if hasSub qL " not " then r.verify_not_logic qL doc_id v
  else v

/-- `BooleanRetrieval.verify_boolean_logic`: start from a clean report
(`logic_correct = true`) and re-check every returned document against the
lowercased query. -/
def BooleanRetrieval.verify_boolean_logic (r : BooleanRetrieval) (query : String)
    (results : List String) : Verification :=
  results.foldl (fun v doc_id => r.verify_step (pyLower query) doc_id v)
    ⟨query, results.length, true, [], []⟩

/-- The five operator families of the query grammar (spec §4.3). -/
inductive BoolOpKind where
  | andNotKind
  | andKind
  | orKind
  | notKind
  | singleKind
deriving DecidableEq

/-- Spec-side operator recognition: case-insensitive substring search on the
lowercased query, in the fixed priority order of §4.3. -/
def recognize_operator (ql : String) : BoolOpKind :=
  if hasSub ql " and not " then .andNotKind
  else if hasSub ql " and " then .andKind
  else if hasSub ql " or " then .orKind
  else if hasSub ql " not " then .notKind
  else .singleKind

/-- Evaluation of one recognized operator family on the normalized query. -/
def BooleanRetrieval.dispatch_operator (r : BooleanRetrieval) (ql : String) :
    BoolOpKind → Finset String
  | .andNotKind => r.handle_and_not ql
  | .andKind => r.handle_and ql
  | .orKind => r.handle_or ql
  | .notKind => r.handle_not ql
  | .singleKind => r.get_documents_for_term ql

/-- A concrete preprocessor for witnesses: identity stemmer, empty stopword list. -/
def prepW : DocumentPreprocessor := ⟨fun s => s, []⟩

/-- A concrete retrieval instance for witnesses. -/
def rW : BooleanRetrieval := ⟨prepW, [("a", {"d1"}), ("b", {"d1", "d2"})], []⟩

/-- A concrete retrieval instance whose index holds only the term `a`. -/
def r3 : BooleanRetrieval := ⟨prepW, [("a", {"d1"})], []⟩

/-- A concrete document collection for the index-invariant witness. -/
def docsW : List LuceneDoc :=
  [⟨"d1", "quick dog", ["quick", "dog"]⟩, ⟨"d2", "lazi cat", ["lazi", "cat"]⟩]

theorem sortedDocs_sorted (s : Finset String) : List.Sorted strLe (sortedDocs s) := by
  rcases s with ⟨m, hn⟩
  revert hn
  induction m using Quot.ind
  intro hn
  exact List.sorted_insertionSort _ _

theorem sortedDocs_nodup (s : Finset String) : (sortedDocs s).Nodup := by
  rcases s with ⟨m, hn⟩
  revert hn
  induction m using Quot.ind
  intro hn
  exact (List.perm_insertionSort _ _).nodup_iff.mpr hn

theorem mem_sortedDocs {s : Finset String} {a : String} : a ∈ sortedDocs s ↔ a ∈ s := by
  rcases s with ⟨m, hn⟩
  revert hn
  induction m using Quot.ind
  intro hn
  constructor
  · intro h
    exact Finset.mem_mk.mpr ((List.perm_insertionSort _ _).mem_iff.mp h)
  · intro h
    exact (List.perm_insertionSort _ _).mem_iff.mpr (Finset.mem_mk.mp h)

theorem mem_foldl_index (fi : String → Option (Finset String)) (toks : List String)
    (s0 : Finset String) (d : String) :
    (d ∈ toks.foldl
      (fun acc tok =>
        match fi tok with
        | some docs => acc ∪ docs
        | none => acc) s0) ↔
      d ∈ s0 ∨ ∃ t ∈ toks, ∃ s, fi t = some s ∧ d ∈ s := by
  induction toks generalizing s0 with
  | nil => simp
  | cons t ts ih =>
    simp only [List.foldl_cons]
    rcases hf : fi t with _ | s
    · simp only [hf]
      rw [ih]
      constructor
      · rintro (h | ⟨t', ht', hs⟩)
        · exact Or.inl h
        · exact Or.inr ⟨t', List.mem_cons_of_mem _ ht', hs⟩
      · rintro (h | ⟨t', ht', s', hs', hd⟩)
        · exact Or.inl h
        · rcases List.mem_cons.mp ht' with rfl | ht''
          · rw [hf] at hs'
            cases hs'
          · exact Or.inr ⟨t', ht'', s', hs', hd⟩
    · simp only [hf]
      rw [ih]
      simp only [Finset.mem_union]
      constructor
      · rintro ((h | h) | ⟨t', ht', hs⟩)
        · exact Or.inl h
        · exact Or.inr ⟨t, List.mem_cons_self _ _, s, hf, h⟩
        · exact Or.inr ⟨t', List.mem_cons_of_mem _ ht', hs⟩
      · rintro (h | ⟨t', ht', s', hs', hd⟩)
        · exact Or.inl (Or.inl h)
        · rcases List.mem_cons.mp ht' with rfl | ht''
          · rw [hf] at hs'
            injection hs' with he
            exact Or.inl (Or.inr (he ▸ hd))
          · exact Or.inr ⟨t', ht'', s', hs', hd⟩

theorem mem_foldl_inter (f : String → Finset String) (ts : List String) (s0 : Finset String)
    (d : String) :
    d ∈ ts.foldl (fun acc term => acc ∩ f term) s0 ↔
      d ∈ s0 ∧ ∀ t ∈ ts, d ∈ f t := by
  induction ts generalizing s0 with
  | nil => simp
  | cons t ts ih =>
    simp only [List.foldl_cons]
    rw [ih]
    simp only [Finset.mem_inter, List.forall_mem_cons]
    exact and_assoc

theorem mem_foldl_union (f : String → Finset String) (ts : List String) (s0 : Finset String)
    (d : String) :
    d ∈ ts.foldl (fun acc term => acc ∪ f term) s0 ↔
      d ∈ s0 ∨ ∃ t ∈ ts, d ∈ f t := by
  induction ts generalizing s0 with
  | nil => simp
  | cons t ts ih =>
    simp only [List.foldl_cons]
    rw [ih]
    simp only [Finset.mem_union]
    constructor
    · rintro ((h | h) | ⟨t', ht', hs⟩)
      · exact Or.inl h
      · exact Or.inr ⟨t, List.mem_cons_self t ts, h⟩
      · exact Or.inr ⟨t', List.mem_cons_of_mem t ht', hs⟩
    · rintro (h | ⟨t', ht', hs⟩)
      · exact Or.inl (Or.inl h)
      · rcases List.mem_cons.mp ht' with rfl | ht''
        · exact Or.inl (Or.inr hs)
        · exact Or.inr ⟨t', ht'', hs⟩

theorem mem_search {r : BooleanRetrieval} {q : String} {m : Nat} {d : String}
    (h : d ∈ r.search_boolean q m) :
    pyStrip q ≠ "" ∧ d ∈ r.parse_boolean_query (pyStrip q) := by
  unfold BooleanRetrieval.search_boolean at h
  by_cases hq : pyStrip q = ""
  · rw [if_pos hq] at h
    simp at h
  · rw [if_neg hq] at h
    exact ⟨hq, mem_sortedDocs.mp ((List.take_sublist _ _).subset h)⟩

theorem pyIsSpace_lowerChar (c : Char) : pyIsSpace (lowerChar c) = pyIsSpace c := by
  rcases hf : upperLowerPairs.find? (fun p => p.1 == c) with _ | p
  · unfold lowerChar
    rw [hf]
  · have hp : p ∈ upperLowerPairs := List.mem_of_find?_eq_some hf
    have hc' : p.1 = c := by
      have hc := List.find?_some hf
      simp only [beq_iff_eq] at hc
      exact hc
    have hall : ∀ q ∈ upperLowerPairs, pyIsSpace q.1 = false ∧ pyIsSpace q.2 = false := by decide
    rcases hall p hp with ⟨h1, h2⟩
    unfold lowerChar
    rw [hf]
    show pyIsSpace p.2 = pyIsSpace c
    rw [h2, ← hc', h1]

theorem dropWhile_lowerChar (l : List Char) :
    (l.map lowerChar).dropWhile pyIsSpace = (l.dropWhile pyIsSpace).map lowerChar := by
  induction l with
  | nil => rfl
  | cons c cs ih =>
    simp only [List.map_cons, List.dropWhile_cons, pyIsSpace_lowerChar]
    by_cases h : pyIsSpace c = true
    · simp [h, ih]
    · simp [h]

theorem stripL_map_lowerChar (l : List Char) :
    stripL (l.map lowerChar) = (stripL l).map lowerChar := by
  unfold stripL
  rw [dropWhile_lowerChar, ← List.map_reverse, dropWhile_lowerChar, ← List.map_reverse]

theorem pyStrip_pyLower (s : String) : pyStrip (pyLower s) = pyLower (pyStrip s) := by
  show (⟨stripL (s.data.map lowerChar)⟩ : String) = ⟨(stripL s.data).map lowerChar⟩
  rw [stripL_map_lowerChar]

theorem splitWsAux_tokens : ∀ (l acc : List Char), (∀ c ∈ acc, pyIsSpace c = false) →
    ∀ t ∈ splitWsAux l acc, t ≠ [] ∧ ∀ c ∈ t, pyIsSpace c = false := by
  intro l
  induction l with
  | nil =>
    intro acc hacc t ht
    simp only [splitWsAux] at ht
    by_cases he : acc.isEmpty
    · rw [if_pos he] at ht
      simp at ht
    · rw [if_neg he] at ht
      simp only [List.mem_singleton] at ht
      subst ht
      refine ⟨?_, ?_⟩
      · intro hnil
        rw [List.reverse_eq_nil_iff] at hnil
        exact he (by simp [hnil])
      · intro c hc
        exact hacc c (List.mem_reverse.mp hc)
  | cons c cs ih =>
    intro acc hacc t ht
    simp only [splitWsAux] at ht
    by_cases hsp : pyIsSpace c = true
    · rw [if_pos hsp] at ht
      by_cases he : acc.isEmpty
      · rw [if_pos he] at ht
        exact ih [] (by simp) t ht
      · rw [if_neg he] at ht
        rcases List.mem_cons.mp ht with rfl | ht'
        · refine ⟨?_, ?_⟩
          · intro hnil
            rw [List.reverse_eq_nil_iff] at hnil
            exact he (by simp [hnil])
          · intro c' hc'
            exact hacc c' (List.mem_reverse.mp hc')
        · exact ih [] (by simp) t ht'
    · rw [if_neg hsp] at ht
      refine ih (c :: acc) ?_ t ht
      intro c' hc'
      rcases List.mem_cons.mp hc' with rfl | hc''
      · exact Bool.eq_false_iff.mpr hsp
      · exact hacc c' hc''

theorem splitWsAux_no_space : ∀ (t acc : List Char), (∀ c ∈ t, pyIsSpace c = false) →
    acc.reverse ++ t ≠ [] → splitWsAux t acc = [acc.reverse ++ t] := by
  intro t
  induction t with
  | nil =>
    intro acc h hne
    have hacc : acc ≠ [] := by
      intro h0
      exact hne (by simp [h0])
    simp only [splitWsAux]
    rw [if_neg (by simpa using hacc)]
    simp
  | cons c t' ih =>
    intro acc h hne
    have h1 : pyIsSpace c = false := h c (List.mem_cons_self c t')
    simp only [splitWsAux]
    rw [if_neg (by simp [h1])]
    rw [ih (c :: acc) (fun c' hc' => h c' (List.mem_cons_of_mem c hc'))
      (by intro h0; have := congrArg List.length h0; simp at this)]
    simp

theorem splitWsAux_append_space (rest : List Char) : ∀ (t acc : List Char),
    (∀ c ∈ t, pyIsSpace c = false) → acc.reverse ++ t ≠ [] →
    splitWsAux (t ++ ' ' :: rest) acc = (acc.reverse ++ t) :: splitWsAux rest [] := by
  intro t
  induction t with
  | nil =>
    intro acc h hne
    have hacc : acc ≠ [] := by
      intro h0
      exact hne (by simp [h0])
    simp only [List.nil_append, splitWsAux]
    rw [if_pos (by decide), if_neg (by simpa using hacc)]
    simp
  | cons c t' ih =>
    intro acc h hne
    have h1 : pyIsSpace c = false := h c (List.mem_cons_self c t')
    simp only [List.cons_append, splitWsAux, List.append_eq]
    rw [if_neg (by simp [h1])]
    rw [ih (c :: acc) (fun c' hc' => h c' (List.mem_cons_of_mem c hc'))
      (by intro h0; have := congrArg List.length h0; simp at this)]
    simp

theorem splitWs_join : ∀ ts : List (List Char),
    (∀ t ∈ ts, t ≠ [] ∧ ∀ c ∈ t, pyIsSpace c = false) →
    splitWsAux (joinWithSpace ts) [] = ts := by
  intro ts
  induction ts with
  | nil => intro _; rfl
  | cons t ts ih =>
    intro h
    cases ts with
    | nil =>
      show splitWsAux t [] = [t]
      rcases h t (List.mem_cons_self _ _) with ⟨hne, hch⟩
      rw [splitWsAux_no_space t [] hch (by simpa using hne)]
      simp
    | cons t2 ts2 =>
      show splitWsAux (t ++ ' ' :: joinWithSpace (t2 :: ts2)) [] = t :: t2 :: ts2
      rcases h t (List.mem_cons_self _ _) with ⟨hne, hch⟩
      rw [splitWsAux_append_space _ t [] hch (by simpa using hne)]
      simp only [List.reverse_nil, List.nil_append]
      rw [ih (fun t' ht' => h t' (List.mem_cons_of_mem _ ht'))]

theorem map_data_mk (ws : List (List Char)) :
    (ws.map (fun w => (⟨w⟩ : String))).map String.data = ws := by
  induction ws with
  | nil => rfl
  | cons w ws ih => simp only [List.map_cons, ih]

theorem pySplitWs_clean (s : String) : pySplitWs (clean_whitespace s) = pySplitWs s := by
  unfold pySplitWs clean_whitespace joinSpace
  congr 1
  show splitWsL (joinWithSpace ((pySplitWs s).map String.data)) = splitWsL s.data
  unfold pySplitWs
  rw [map_data_mk]
  unfold splitWsL
  exact splitWs_join (splitWsAux s.data []) (splitWsAux_tokens s.data [] (by simp))

theorem mem_handle_and {r : BooleanRetrieval} {q d : String} (h : d ∈ r.handle_and q) :
    ∀ t ∈ (pySplitOn q " and ").map pyStrip, d ∈ r.get_documents_for_term t := by
  unfold BooleanRetrieval.handle_and at h
  rcases hp : (pySplitOn q " and ").map pyStrip with _ | ⟨t, ts⟩
  · rw [hp] at h
    simp at h
  · rw [hp] at h
    rw [mem_foldl_inter] at h
    intro t' ht'
    rcases List.mem_cons.mp ht' with rfl | ht''
    · exact h.1
    · exact h.2 t' ht''

theorem mem_handle_or {r : BooleanRetrieval} {q d : String} (h : d ∈ r.handle_or q) :
    ∃ t ∈ (pySplitOn q " or ").map pyStrip, d ∈ r.get_documents_for_term t := by
  unfold BooleanRetrieval.handle_or at h
  rw [mem_foldl_union] at h
  rcases h with h | h
  · simp at h
  · exact h

theorem foldl_keeps {α : Type} (f : Verification → α → Verification) :
    ∀ ts : List α, (∀ t ∈ ts, ∀ v : Verification, (f v t).logic_correct = v.logic_correct) →
    ∀ v : Verification, (ts.foldl f v).logic_correct = v.logic_correct := by
  intro ts
  induction ts with
  | nil =>
    intro _ v
    rfl
  | cons t ts ih =>
    intro hf v
    simp only [List.foldl_cons]
    rw [ih (fun t' ht' v' => hf t' (List.mem_cons_of_mem _ ht') v'),
      hf t (List.mem_cons_self _ _)]

theorem posCheck_keeps {r : BooleanRetrieval} {term d : String}
    (h : d ∈ r.get_documents_for_term term) (v : Verification) :
    (posCheck r term d v).logic_correct = v.logic_correct := by
  unfold posCheck
  rw [if_pos h]

theorem negCheck_keeps {r : BooleanRetrieval} {term d : String}
    (h : d ∉ r.get_documents_for_term term) (v : Verification) :
    (negCheck r term d v).logic_correct = v.logic_correct := by
  unfold negCheck
  rw [if_neg h]

theorem verify_and_keeps {r : BooleanRetrieval} {qL d : String}
    (hd : d ∈ r.handle_and qL) (v : Verification) :
    (r.verify_and_logic qL d v).logic_correct = v.logic_correct := by
  have hall := mem_handle_and hd
  unfold BooleanRetrieval.verify_and_logic
  show (((pySplitOn qL " and ").map pyStrip).foldl _ v).logic_correct = v.logic_correct
  apply foldl_keeps
  intro t ht v2
  rw [if_pos (hall t ht)]

theorem verify_or_keeps {r : BooleanRetrieval} {qL d : String}
    (hd : d ∈ r.handle_or qL) (v : Verification) :
    (r.verify_or_logic qL d v).logic_correct = v.logic_correct := by
  obtain ⟨t, ht, hmem⟩ := mem_handle_or hd
  unfold BooleanRetrieval.verify_or_logic
  have hany : ((pySplitOn qL " or ").map pyStrip).any
      (fun term => decide (d ∈ r.get_documents_for_term term)) = true :=
    List.any_eq_true.mpr ⟨t, ht, decide_eq_true hmem⟩
  rw [if_pos hany]
  rfl

attribute [irreducible] pyStrip pyLower DocumentPreprocessor.preprocess_text
  BooleanRetrieval.get_documents_for_term

theorem verify_and_not_keeps {r : BooleanRetrieval} {qL d : String}
    (hd : d ∈ r.handle_and_not qL) (v : Verification) :
    (r.verify_and_not_logic qL d v).logic_correct = v.logic_correct := by
  unfold BooleanRetrieval.handle_and_not at hd
  unfold BooleanRetrieval.verify_and_not_logic
  rcases hs : pySplitOn qL " and not " with _ | ⟨l, _ | ⟨n, _ | ⟨x, xs⟩⟩⟩
  · rfl
  · rfl
  · simp only [hs] at hd
    rw [Finset.mem_sdiff] at hd
    obtain ⟨hpos, hneg⟩ := hd
    change (negCheck r (pyStrip n) d _).logic_correct = v.logic_correct
    by_cases hand : hasSub (pyStrip l) " and " = true
    · rw [if_pos hand] at hpos
      have hall := mem_handle_and hpos
      have hallb : ((pySplitOn (pyStrip l) " and ").map pyStrip).all
          (fun term => decide (d ∈ r.get_documents_for_term term)) = true :=
        List.all_eq_true.mpr (fun t ht => decide_eq_true (hall t ht))
      rw [if_pos hand, if_pos hallb]
      exact negCheck_keeps hneg v
    · rw [if_neg hand] at hpos
      rw [if_neg hand]
      exact (negCheck_keeps hneg _).trans (posCheck_keeps hpos v)
  · rfl

theorem verify_not_keeps {r : BooleanRetrieval} {qL d : String}
    (hd : d ∈ r.handle_not qL) (v : Verification) :
    (r.verify_not_logic qL d v).logic_correct = v.logic_correct := by
  unfold BooleanRetrieval.handle_not at hd
  unfold BooleanRetrieval.verify_not_logic
  rcases hs : pySplitOn qL " not " with _ | ⟨p0, _ | ⟨n0, _ | ⟨x, xs⟩⟩⟩
  · rfl
  · rfl
  · simp only [hs] at hd
    rw [Finset.mem_sdiff] at hd
    change (negCheck r (pyStrip n0) d (posCheck r (pyStrip p0) d v)).logic_correct =
      v.logic_correct
    exact (negCheck_keeps hd.2 _).trans (posCheck_keeps hd.1 v)
  · rfl

theorem foldl_verify_preserve (r : BooleanRetrieval) (qL : String) :
    ∀ results : List String,
      (∀ d ∈ results, ∀ v : Verification,
        (r.verify_step qL d v).logic_correct = v.logic_correct) →
      ∀ v : Verification,
        (results.foldl (fun v2 doc_id => r.verify_step qL doc_id v2) v).logic_correct =
          v.logic_correct := by
  intro results
  induction results with
  | nil =>
    intro _ v
    rfl
  | cons d ds ih =>
    intro hok v
    simp only [List.foldl_cons]
    rw [ih (fun d' hd' v' => hok d' (List.mem_cons_of_mem _ hd') v'),
      hok d (List.mem_cons_self _ _)]

/-- C9 (amended): for every query without leading or trailing whitespace, the
verifier applied to the evaluator's own output reports `logic_correct = true`.
(The unamended claim, over all queries, is refuted by `C9_counterexample`:
`search_boolean` strips the query before classifying it while
`verify_boolean_logic` classifies the unstripped lowercased query.) -/
theorem C9_verifier_consistent_trimmed (r : BooleanRetrieval) (q : String) (m : Nat)
    (h : pyStrip q = q) :
    (r.verify_boolean_logic q (r.search_boolean q m)).logic_correct = true := by
  have hql : pyStrip (pyLower q) = pyLower q := by rw [pyStrip_pyLower, h]
  have hok : ∀ d ∈ r.search_boolean q m, ∀ v : Verification,
      (r.verify_step (pyLower q) d v).logic_correct = v.logic_correct := by
    intro d hd v
    obtain ⟨hne, hdp⟩ := mem_search hd
    rw [h] at hdp
    unfold BooleanRetrieval.parse_boolean_query at hdp
    rw [hql] at hdp
    unfold BooleanRetrieval.verify_step
    by_cases h1 : hasSub (pyLower q) " and not " = true
    · rw [if_pos h1] at hdp ⊢
      exact verify_and_not_keeps hdp v
    · rw [if_neg h1] at hdp ⊢
      by_cases h2 : hasSub (pyLower q) " and " = true
      · rw [if_pos h2] at hdp ⊢
        exact verify_and_keeps hdp v
      · rw [if_neg h2] at hdp ⊢
        by_cases h3 : hasSub (pyLower q) " or " = true
        · rw [if_pos h3] at hdp ⊢
          exact verify_or_keeps hdp v
        · rw [if_neg h3] at hdp ⊢
          by_cases h4 : hasSub (pyLower q) " not " = true
          · rw [if_pos h4] at hdp ⊢
            exact verify_not_keeps hdp v
          · rw [if_neg h4]
  unfold BooleanRetrieval.verify_boolean_logic
  rw [foldl_verify_preserve r (pyLower q) (r.search_boolean q m) hok]

/-- C1: the evaluator recognizes exactly one operator family per query, chosen
by substring search on the lowercased (and stripped) query in the priority
order AND NOT, AND, OR, NOT, single term: parsing coincides with dispatching on
the spec-side `recognize_operator` classification. -/
theorem C1_operator_priority (r : BooleanRetrieval) (q : String) :
    r.parse_boolean_query q =
      r.dispatch_operator (pyStrip (pyLower q)) (recognize_operator (pyStrip (pyLower q))) := by
  unfold BooleanRetrieval.parse_boolean_query recognize_operator
  by_cases h1 : hasSub (pyStrip (pyLower q)) " and not " = true
  · rw [if_pos h1, if_pos h1]
    rfl
  · rw [if_neg h1, if_neg h1]
    by_cases h2 : hasSub (pyStrip (pyLower q)) " and " = true
    · rw [if_pos h2, if_pos h2]
      rfl
    · rw [if_neg h2, if_neg h2]
      by_cases h3 : hasSub (pyStrip (pyLower q)) " or " = true
      · rw [if_pos h3, if_pos h3]
        rfl
      · rw [if_neg h3, if_neg h3]
        by_cases h4 : hasSub (pyStrip (pyLower q)) " not " = true
        · rw [if_pos h4, if_pos h4]
          rfl
        · rw [if_neg h4, if_neg h4]
          rfl

/-- C2: term-group resolution normalizes the stripped, lowercased group text
through the indexing-time pipeline into zero or more tokens, unions the index
set of every token present in the inverted index (absent tokens contribute
nothing, without error), resolves to the empty set when no token survives, and
the token pipeline is exactly the indexing-time one (`preprocess_manual` is its
space-joined form). -/
theorem C2_term_group_resolution (r : BooleanRetrieval) (g : String) :
    (∀ d : String, d ∈ r.get_documents_for_term g ↔
      ∃ t ∈ r.preprocessor.preprocess_text (pyLower (pyStrip g)),
        ∃ s, indexFind r.inverted_index t = some s ∧ d ∈ s) ∧
    (r.preprocessor.preprocess_text (pyLower (pyStrip g)) = [] →
      r.get_documents_for_term g = ∅) ∧
    (∀ text : String, r.preprocessor.preprocess_manual text =
      joinSpace (r.preprocessor.preprocess_text text)) := by
  refine ⟨fun d => ?_, fun hz => ?_, fun text => ?_⟩
  · unfold BooleanRetrieval.get_documents_for_term
    rw [mem_foldl_index]
    simp
  · unfold BooleanRetrieval.get_documents_for_term
    rw [hz]
    rfl
  · simp only [DocumentPreprocessor.preprocess_manual, DocumentPreprocessor.preprocess_text]

/-- C3 (amended): a query containing `" and not "` is split on every occurrence
of that substring; when the split yields exactly two parts, the left part is
resolved as an AND group if it contains `" and "` and as a term group otherwise,
and the result is that resolution minus the right part's term-group set; with
more than two parts the result is empty. (The unamended claim — split once on
the first occurrence — is refuted by `C3_counterexample`.) -/
theorem C3_and_not_split (r : BooleanRetrieval) (q : String)
    (h : hasSub (pyStrip (pyLower q)) " and not " = true) :
    r.parse_boolean_query q =
      (match pySplitOn (pyStrip (pyLower q)) " and not " with
       | [l, n] =>
         (if hasSub (pyStrip l) " and " then r.handle_and (pyStrip l)
          else r.get_documents_for_term (pyStrip l)) \ r.get_documents_for_term (pyStrip n)
       | _ => ∅) := by
  unfold BooleanRetrieval.parse_boolean_query
  rw [if_pos h]
  unfold BooleanRetrieval.handle_and_not
  rcases pySplitOn (pyStrip (pyLower q)) " and not " with _ | ⟨l, _ | ⟨n, _ | ⟨x, xs⟩⟩⟩
  · rfl
  · rfl
  · rfl
  · rfl

/-- C4: the list returned by `search_boolean` is in ascending lexicographic
order, contains no duplicate document ids, and has length at most the
caller-specified maximum. -/
theorem C4_sorted_nodup_truncated (r : BooleanRetrieval) (q : String) (m : Nat) :
    List.Sorted strLe (r.search_boolean q m) ∧ (r.search_boolean q m).Nodup ∧
      (r.search_boolean q m).length ≤ m := by
  unfold BooleanRetrieval.search_boolean
  by_cases hq : pyStrip q = ""
  · rw [if_pos hq]
    exact ⟨List.sorted_nil, List.nodup_nil, by simp⟩
  · rw [if_neg hq]
    refine ⟨?_, ?_, ?_⟩
    · exact List.Pairwise.sublist (List.take_sublist _ _)
        (sortedDocs_sorted (r.parse_boolean_query (pyStrip q)))
    · exact List.Nodup.sublist (List.take_sublist _ _)
        (sortedDocs_nodup (r.parse_boolean_query (pyStrip q)))
    · exact List.length_take_le _ _

/-- C5: a blank (empty or whitespace-only) query evaluates to the empty result
list; in this total model no evaluation path can raise. -/
theorem C5_blank_query_empty (r : BooleanRetrieval) (q : String) (m : Nat)
    (h : pyStrip q = "") : r.search_boolean q m = [] := by
  unfold BooleanRetrieval.search_boolean
  rw [if_pos h]

/-- C6: a query whose normalized form contains more than one `" not "`
separator, and none of the higher-priority operator substrings, evaluates to
the empty result (and, the model being total, raises no error). -/
theorem C6_multi_not_empty (r : BooleanRetrieval) (q : String) (m : Nat)
    (h1 : hasSub (pyStrip (pyLower (pyStrip q))) " and not " = false)
    (h2 : hasSub (pyStrip (pyLower (pyStrip q))) " and " = false)
    (h3 : hasSub (pyStrip (pyLower (pyStrip q))) " or " = false)
    (h4 : 2 < (pySplitOn (pyStrip (pyLower (pyStrip q))) " not ").length) :
    r.search_boolean q m = [] := by
  unfold BooleanRetrieval.search_boolean
  by_cases hq : pyStrip q = ""
  · rw [if_pos hq]
  · rw [if_neg hq]
    unfold BooleanRetrieval.parse_boolean_query
    rw [if_neg (by simp [h1]), if_neg (by simp [h2]), if_neg (by simp [h3])]
    have h5 : hasSub (pyStrip (pyLower (pyStrip q))) " not " = true := by
      unfold hasSub
      simp only [bne_iff_ne]
      omega
    rw [if_pos h5]
    unfold BooleanRetrieval.handle_not
    rcases hsp : pySplitOn (pyStrip (pyLower (pyStrip q))) " not "
      with _ | ⟨p, _ | ⟨n, _ | ⟨x, xs⟩⟩⟩
    · rw [hsp] at h4
      simp at h4
    · rw [hsp] at h4
      simp at h4
    · rw [hsp] at h4
      simp at h4
    · show List.take m (sortedDocs ∅) = []
      rw [show sortedDocs (∅ : Finset String) = [] from rfl]
      exact List.take_nil

/-- C10: a query whose normalized form contains the substring `" and not "` at
more than one position (so splitting on it yields more than two parts)
evaluates to the empty list: the AND NOT handler requires exactly two split
parts and otherwise returns the empty set. -/
theorem C10_multi_and_not_empty (r : BooleanRetrieval) (q : String) (m : Nat)
    (h : 2 < (pySplitOn (pyStrip (pyLower (pyStrip q))) " and not ").length) :
    r.search_boolean q m = [] := by
  unfold BooleanRetrieval.search_boolean
  by_cases hq : pyStrip q = ""
  · rw [if_pos hq]
  · rw [if_neg hq]
    unfold BooleanRetrieval.parse_boolean_query
    have h1 : hasSub (pyStrip (pyLower (pyStrip q))) " and not " = true := by
      unfold hasSub
      simp only [bne_iff_ne]
      omega
    rw [if_pos h1]
    unfold BooleanRetrieval.handle_and_not
    rcases hsp : pySplitOn (pyStrip (pyLower (pyStrip q))) " and not "
      with _ | ⟨l, _ | ⟨n, _ | ⟨x, xs⟩⟩⟩
    · rw [hsp] at h
      simp at h
    · rw [hsp] at h
      simp at h
    · rw [hsp] at h
      simp at h
    · show List.take m (sortedDocs ∅) = []
      rw [show sortedDocs (∅ : Finset String) = [] from rfl]
      exact List.take_nil

theorem indexFind_insertTerm (idx : List (String × Finset String)) (t dd T : String) :
    indexFind (insertTerm idx t dd) T =
      if t = T then some (insert dd (indexFindD idx T)) else indexFind idx T := by
  induction idx with
  | nil =>
    simp only [insertTerm, indexFind, indexFindD]
    by_cases h : t = T
    · rw [if_pos h, if_pos h]
      simp
    · rw [if_neg h, if_neg h]
  | cons e es ih =>
    simp only [insertTerm]
    by_cases he : e.1 = t
    · rw [if_pos he]
      by_cases hT : t = T
      · subst hT
        simp only [indexFind, indexFindD]
        simp [he]
      · have heT : ¬ e.1 = T := fun hc => hT (he ▸ hc)
        simp only [indexFind, indexFindD]
        simp [heT, hT]
    · rw [if_neg he]
      by_cases hT : e.1 = T
      · have htT : ¬ t = T := fun hc => he (by rw [hc, hT])
        simp only [indexFind]
        simp [hT, htT]
      · simp only [indexFind]
        rw [if_neg hT, if_neg hT, ih]
        by_cases htT : t = T
        · rw [if_pos htT, if_pos htT]
          simp only [indexFindD, indexFind]
          rw [if_neg hT]
        · rw [if_neg htT, if_neg htT]

theorem mem_foldl_insertTerm (dd : String) : ∀ (vec : List String)
    (idx : List (String × Finset String)) (x T : String),
    x ∈ indexFindD (vec.foldl (fun i t => insertTerm i t dd) idx) T ↔
      x ∈ indexFindD idx T ∨ (T ∈ vec ∧ x = dd) := by
  intro vec
  induction vec with
  | nil =>
    intro idx x T
    simp
  | cons t ts ih =>
    intro idx x T
    simp only [List.foldl_cons]
    rw [ih]
    unfold indexFindD
    rw [indexFind_insertTerm]
    by_cases h : t = T
    · subst h
      rw [if_pos rfl]
      simp only [Option.getD_some, Finset.mem_insert, List.mem_cons]
      constructor
      · rintro ((hx | hx) | ⟨hT, hx⟩)
        · exact Or.inr ⟨Or.inl trivial, hx⟩
        · exact Or.inl hx
        · exact Or.inr ⟨Or.inr hT, hx⟩
      · rintro (hx | ⟨hT | hT, hx⟩)
        · exact Or.inl (Or.inr hx)
        · exact Or.inl (Or.inl hx)
        · exact Or.inr ⟨hT, hx⟩
    · rw [if_neg h]
      simp only [List.mem_cons]
      constructor
      · rintro (hx | ⟨hT, hx⟩)
        · exact Or.inl hx
        · exact Or.inr ⟨Or.inr hT, hx⟩
      · rintro (hx | ⟨hT | hT, hx⟩)
        · exact Or.inl hx
        · exact absurd hT.symm h
        · exact Or.inr ⟨hT, hx⟩

theorem mem_build_inverted_index (docs : List LuceneDoc) (x T : String) :
    x ∈ indexFindD (build_inverted_index docs) T ↔
      ∃ doc ∈ docs, doc.docid = x ∧ T ∈ doc.vector := by
  unfold build_inverted_index
  suffices h : ∀ idx : List (String × Finset String),
      (x ∈ indexFindD (docs.foldl
        (fun i doc => doc.vector.foldl (fun i2 t => insertTerm i2 t doc.docid) i) idx) T ↔
      x ∈ indexFindD idx T ∨ ∃ doc ∈ docs, doc.docid = x ∧ T ∈ doc.vector) by
    rw [h []]
    simp [indexFindD, indexFind]
  intro idx
  induction docs generalizing idx with
  | nil => simp
  | cons doc ds ih =>
    simp only [List.foldl_cons]
    rw [ih, mem_foldl_insertTerm]
    constructor
    · rintro ((hx | ⟨hT, hx⟩) | ⟨doc', hdoc', hid, hT⟩)
      · exact Or.inl hx
      · exact Or.inr ⟨doc, List.mem_cons_self _ _, hx.symm, hT⟩
      · exact Or.inr ⟨doc', List.mem_cons_of_mem _ hdoc', hid, hT⟩
    · rintro (hx | ⟨doc', hdoc', hid, hT⟩)
      · exact Or.inl (Or.inl hx)
      · rcases List.mem_cons.mp hdoc' with rfl | hdoc''
        · exact Or.inl (Or.inr ⟨hT, hid.symm⟩)
        · exact Or.inr ⟨doc', hdoc'', hid, hT⟩

/-- C8: after the index is built, a document id appears in the inverted-index
entry of a term exactly when that term occurs in the document's normalized
content, assuming the stored document vectors agree with normalization (the
underlying engine's guarantee) and the collection docids are distinct. -/
theorem C8_index_invariant (docs : List LuceneDoc) (normTok : String → List String)
    (hids : (docs.map LuceneDoc.docid).Nodup)
    (hvec : ∀ doc ∈ docs, doc.vector.toFinset = (normTok doc.contents).toFinset) :
    ∀ doc ∈ docs, ∀ T : String,
      (doc.docid ∈ indexFindD (build_inverted_index docs) T ↔ T ∈ normTok doc.contents) := by
  intro doc hdoc T
  rw [mem_build_inverted_index]
  constructor
  · rintro ⟨doc', hdoc', hid, hT⟩
    have heq : doc' = doc := List.inj_on_of_nodup_map hids hdoc' hdoc hid
    subst heq
    have hv := hvec doc' hdoc'
    rw [← List.mem_toFinset, hv, List.mem_toFinset] at hT
    exact hT
  · intro hT
    refine ⟨doc, hdoc, rfl, ?_⟩
    have hv := hvec doc hdoc
    rw [← List.mem_toFinset, hv, List.mem_toFinset]
    exact hT

set_option allowUnsafeReducibility true in
attribute [semireducible] pyStrip pyLower DocumentPreprocessor.preprocess_text
  BooleanRetrieval.get_documents_for_term

/-- C7: normalization applies exactly the pipeline lowercase, ASCII-punctuation
removal (deleting, not replacing by spaces, so `don't` becomes `dont`),
whitespace collapsing, whitespace tokenization, stopword removal, stemming, in
that order: the code-side pipeline coincides with the spec-side composition
`normalize_spec`, the indexing-time `preprocess_manual` is its space-joined
form, and empty input yields the empty token sequence. -/
theorem C7_normalization_pipeline (p : DocumentPreprocessor) (t : String) :
    p.preprocess_text t = normalize_spec p t ∧
    p.preprocess_manual t = joinSpace (p.preprocess_text t) ∧
    p.preprocess_text "" = [] ∧
    remove_punctuation ⟨['d', 'o', 'n', Char.ofNat 39, 't']⟩ = "dont" := by
  refine ⟨?_, rfl, rfl, by decide⟩
  unfold DocumentPreprocessor.preprocess_text normalize_spec
  rw [pySplitWs_clean]
  rfl

/-- C9 counterexample: for the query `" not b"` (leading space), the evaluator
strips the query and treats `not b` as a single term group, returning the
documents containing `b`, while the verifier classifies the unstripped
lowercased query as a NOT query with an empty positive part and flags every
returned document, so `logic_correct` is `false` on the evaluator's own output. -/
theorem C9_counterexample :
    ¬ ((rW.verify_boolean_logic " not b" (rW.search_boolean " not b" 100)).logic_correct
        = true) := by
  decide

theorem C9_verifier_consistent_trimmed_witness :
    pyStrip "a and b" = "a and b" ∧
      (rW.verify_boolean_logic "a and b" (rW.search_boolean "a and b" 100)).logic_correct
        = true :=
  ⟨by decide, C9_verifier_consistent_trimmed rW "a and b" 100 (by decide)⟩

/-- C3 counterexample: for `"a and not b and not c"` the claim's split-once
reading predicts `terms_for("a") minus terms_for("b and not c")`, which is
`{"d1"}` in the index of `r3`, but the evaluator splits on every occurrence,
finds three parts, and returns the empty set. -/
theorem C3_counterexample :
    ¬ (r3.parse_boolean_query "a and not b and not c" =
        r3.get_documents_for_term "a" \ r3.get_documents_for_term "b and not c") := by
  decide

theorem C3_and_not_split_witness :
    hasSub (pyStrip (pyLower "a and b and not c")) " and not " = true ∧
      r3.parse_boolean_query "a and b and not c" =
        (match pySplitOn (pyStrip (pyLower "a and b and not c")) " and not " with
         | [l, n] =>
           (if hasSub (pyStrip l) " and " then r3.handle_and (pyStrip l)
            else r3.get_documents_for_term (pyStrip l)) \
             r3.get_documents_for_term (pyStrip n)
         | _ => ∅) :=
  ⟨by decide, C3_and_not_split r3 "a and b and not c" (by decide)⟩

theorem C5_blank_query_empty_witness :
    pyStrip "   " = "" ∧ rW.search_boolean "   " 100 = [] :=
  ⟨by decide, C5_blank_query_empty rW "   " 100 (by decide)⟩

theorem C6_multi_not_empty_witness :
    (hasSub (pyStrip (pyLower (pyStrip "a not b not c"))) " and not " = false ∧
     hasSub (pyStrip (pyLower (pyStrip "a not b not c"))) " and " = false ∧
     hasSub (pyStrip (pyLower (pyStrip "a not b not c"))) " or " = false ∧
     2 < (pySplitOn (pyStrip (pyLower (pyStrip "a not b not c"))) " not ").length) ∧
    rW.search_boolean "a not b not c" 100 = [] :=
  ⟨⟨by decide, by decide, by decide, by decide⟩,
    C6_multi_not_empty rW "a not b not c" 100 (by decide) (by decide) (by decide) (by decide)⟩

theorem C10_multi_and_not_empty_witness :
    2 < (pySplitOn (pyStrip (pyLower (pyStrip "a and not b and not c"))) " and not ").length ∧
      rW.search_boolean "a and not b and not c" 100 = [] :=
  ⟨by decide, C10_multi_and_not_empty rW "a and not b and not c" 100 (by decide)⟩

theorem C8_index_invariant_witness :
    ((docsW.map LuceneDoc.docid).Nodup ∧
      ∀ doc ∈ docsW, doc.vector.toFinset = (pySplitWs doc.contents).toFinset) ∧
    ("d1" ∈ indexFindD (build_inverted_index docsW) "dog" ↔ "dog" ∈ pySplitWs "quick dog") :=
  ⟨⟨by decide, by decide⟩,
    C8_index_invariant docsW pySplitWs (by decide) (by decide)
      ⟨"d1", "quick dog", ["quick", "dog"]⟩ (by decide) "dog"⟩

end IRBool
